import Mathlib

/-!
Verification development for the humiocli core text algorithms:
the record segmenter (`readevents_split` with its inner `chomp`, from
`humiocli/utils.py`) and the markup reformatter (`process`, `prettify`,
`key_value`, `clean_tags`, `repair_tags` and the module-level regexes,
from `humiocli/prettyxml.py`).

Python strings are embedded as `List Char` (sequences of code points).
The user-supplied separator regex of the segmenter is external input, so
the segmenter is parametrised over the split function the compiled regex
induces (a capturing `re.split`); the concrete module-level
regexes of `prettyxml.py` are embedded as executable matchers, with the
derivation from each pattern documented at the matcher.  Character
classes `\s` and `\d` are modelled on their ASCII fragment, which is all
the development evaluates them on.
-/

/-- A Python string: a finite sequence of code points. -/
abbrev Str := List Char

/-! ## Record segmenter (`humiocli/utils.py`, `readevents_split`) -/

/-- Inner helper `chomp` of `readevents_split`: "Perl-like chomp, strip
final newlines but keep whitespaces unlike rstrip".  Mirrors the Python
`endswith` cascade: first `"\r\n"` (two chars dropped), else `"\n"` or
`"\r"` (one char dropped), else unchanged. -/
def chomp (x : Str) : Str :=
  if ['\r', '\n'] <:+ x then x.dropLast.dropLast
  else if ['\n'] <:+ x then x.dropLast
  else if ['\r'] <:+ x then x.dropLast
  else x

/-- The trailing line terminator that `chomp` removes from a string
(empty when `chomp` removes nothing).  Used to state the reassembly
property: `chomp x ++ removedTerm x = x`. -/
def removedTerm (x : Str) : Str :=
  if ['\r', '\n'] <:+ x then ['\r', '\n']
  else if ['\n'] <:+ x then ['\n']
  else if ['\r'] <:+ x then ['\r']
  else []

/-- Python `[a + b for a, b in zip(parts[::2], parts[1::2])]`: pair up
consecutive elements, dropping an unpaired last element (as `zip` does). -/
def pairUp : List Str → List Str
  | a :: b :: rest => (a ++ b) :: pairUp rest
  | _ => []

/-- Python `*complete, incomplete = pending` destructuring: all elements
but the last, and the last; `none` when the list is empty. -/
def initLast : List Str → Option (List Str × Str)
  | [] => none
  | [a] => some ([], a)
  | a :: b :: rest =>
    match initLast (b :: rest) with
    | some (c, i) => some (a :: c, i)
    | none => none

/-- Python `if continuation: buffer += continuation` (appending the empty
string is skipped; the result is the same either way). -/
def bufAppend (buffer continuation : Str) : Str :=
  if continuation = [] then buffer else buffer ++ continuation

/-- One iteration of the `while` loop of `readevents_split` for a line:
given the buffer and the line, returns the new buffer and the records
yielded during the iteration (in yield order).  `resplit` stands for
`sep.split(line)` of the compiled separator, a capturing `re.split`:
for a separator without groups of its own this is the leading non-match
followed by alternating match/gap pieces, while a separator with its own
capture groups contributes extra group pieces per match. -/
def stepLine (resplit : Str → List Str) (buffer line : Str) : Str × List Str :=
  match resplit line with
  | [] => (buffer, [])
  | continuation :: parts =>
    match initLast (pairUp parts) with
    | none => (bufAppend buffer continuation, [])
    | some (complete, incomplete) =>
      (incomplete,
        (if bufAppend buffer continuation = [] then []
         else [chomp (bufAppend buffer continuation)]) ++ complete.map chomp)

/-- `stepLine` without the `chomp` applied at each yield: the raw record
strings as they stand in the buffer.  Proof device for the reassembly
property. -/
def rawStepLine (resplit : Str → List Str) (buffer line : Str) : Str × List Str :=
  match resplit line with
  | [] => (buffer, [])
  | continuation :: parts =>
    match initLast (pairUp parts) with
    | none => (bufAppend buffer continuation, [])
    | some (complete, incomplete) =>
      (incomplete,
        (if bufAppend buffer continuation = [] then []
         else [bufAppend buffer continuation]) ++ complete)

/-- The record sequence produced by the loop of `readevents_split` from a
given starting buffer over the remaining lines, ending with the final
`yield chomp(buffer)` at end of input. -/
def readevents_go (resplit : Str → List Str) : Str → List Str → List Str
  | buffer, [] => [chomp buffer]
  | buffer, line :: rest =>
    (stepLine resplit buffer line).2 ++
      readevents_go resplit (stepLine resplit buffer line).1 rest

/-- `readevents_split(io, sep)`: the full record sequence for an input
stream given as its list of physical lines (each line as `readline`
returns it, terminator included). -/
def readevents_split (resplit : Str → List Str) (lines : List Str) : List Str :=
  readevents_go resplit [] lines

/-- The raw (un-chomped) record sequence; proof device for reassembly. -/
def rawevents_go (resplit : Str → List Str) : Str → List Str → List Str
  | buffer, [] => [buffer]
  | buffer, line :: rest =>
    (rawStepLine resplit buffer line).2 ++
      rawevents_go resplit (rawStepLine resplit buffer line).1 rest

/-- The raw records of a whole stream. -/
def rawRecords (resplit : Str → List Str) (lines : List Str) : List Str :=
  rawevents_go resplit [] lines

/-- Python `io.readline` on a text stream: split a character stream into
physical lines after each newline, keeping the terminator. -/
def toLinesGo (acc : Str) : Str → List Str
  | [] => if acc = [] then [] else [acc.reverse]
  | c :: rest =>
    if c = '\n' then (acc.reverse ++ ['\n']) :: toLinesGo [] rest
    else toLinesGo (c :: acc) rest

/-- The list of physical lines of a stream. -/
def toLines (s : Str) : List Str := toLinesGo [] s

/-! ### A concrete compiled separator: `^\d{4}-\d{2}-\d{2}`

`readevents_split` compiles `"(" + sep + ")"` with `re.MULTILINE` and
`re.DOTALL`.  For the separator `^\d{4}-\d{2}-\d{2}` this matches, at the
start of the buffer or right after a newline, four digits, a dash, two
digits, a dash and two digits (`DOTALL` is irrelevant: the pattern has no
dot). -/

/-- Match `\d{4}-\d{2}-\d{2}` against the head of a string: ten
characters consumed on success. -/
def matchDateAt : Str → Option Nat
  | a :: b :: c :: d :: '-' :: e :: f :: '-' :: g :: h :: _ =>
    if a.isDigit && b.isDigit && c.isDigit && d.isDigit &&
       e.isDigit && f.isDigit && g.isDigit && h.isDigit
    then some 10 else none
  | _ => none

/-- `re.split` with one capturing group and a `re.MULTILINE` `^`-anchored
pattern, scanning left to right: `acc` is the (reversed) pending
non-match piece, `atStart` whether the current position is at a line
start (string start or right after `'\n'`); a match emits the pending
piece and the matched text and resumes after the match.  Fuelled to keep
the recursion structural; the fuel branch is unreachable when the fuel is
at least the string length. -/
def reSplitMLGo (matchAt : Str → Option Nat) : Nat → Str → Bool → Str → List Str
  | _, acc, _, [] => [acc.reverse]
  | 0, acc, _, l => [acc.reverse ++ l]
  | fuel + 1, acc, atStart, c :: rest =>
    match (if atStart then matchAt (c :: rest) else none) with
    | some (n + 1) =>
      acc.reverse :: (c :: rest).take (n + 1) ::
        reSplitMLGo matchAt fuel
          [] (((c :: rest).take (n + 1)).getLast? = some '\n') ((c :: rest).drop (n + 1))
    | _ => reSplitMLGo matchAt fuel (c :: acc) (c = '\n') rest

/-- `re.split("(^\d{4}-\d{2}-\d{2})", line, flags=re.M | re.S)`. -/
def resplitDate (line : Str) : List Str :=
  reSplitMLGo matchDateAt line.length [] true line

/-! ### The pattern-compile failure path

`readevents_split` runs `sep = re.compile(...)` before its read loop; a
malformed pattern raises there.  Compilation is external (`re`), so it is
modelled as an `Except` value; the generator's observable behaviour is
modelled as a trace of read, emit and raise events. -/

/-- Failure raised by `re.compile` on a malformed pattern. -/
structure PatternError where
  msg : Str
deriving DecidableEq

/-- Observable events of one `readevents_split` run. -/
inductive SegEvent
  | readLine : Str → SegEvent
  | emit : Str → SegEvent
  | raised : PatternError → SegEvent
deriving DecidableEq

/-- Trace of the read loop: each iteration reads a line, then yields the
records `stepLine` produces; end of input yields the chomped buffer. -/
def traceGo (resplit : Str → List Str) : Str → List Str → List SegEvent
  | buffer, [] => [SegEvent.emit (chomp buffer)]
  | buffer, line :: rest =>
    SegEvent.readLine line ::
      ((stepLine resplit buffer line).2.map SegEvent.emit ++
        traceGo resplit (stepLine resplit buffer line).1 rest)

/-- Trace of a `readevents_split` call: pattern compilation happens
first; a compile failure raises before the loop ever reads a line. -/
def segmentTrace (compiled : Except PatternError (Str → List Str))
    (lines : List Str) : List SegEvent :=
  match compiled with
  | Except.error e => [SegEvent.raised e]
  | Except.ok resplit => traceGo resplit [] lines

/-! ## Markup reformatter (`humiocli/prettyxml.py`)

Module-level regexes, embedded as executable matchers over `List Char`.
Every matcher's derivation from its pattern is noted; the patterns are
deterministic enough that greedy matching with backtracking reduces to
plain scans (each quantified class excludes the character that must
follow it, so a failed maximal run cannot be rescued by backtracking). -/

/-- Python `\s` on its ASCII fragment. -/
def isPySpace (c : Char) : Bool :=
  c = ' ' || c = '\t' || c = '\n' || c = '\r' || c = '\x0b' || c = '\x0c'

/-- Characters admitted by `[^<>\[\s\d-]`, the class for the character
right after `<` in `re_tag`. -/
def re_tagSecond (c : Char) : Bool :=
  !(c = '<' || c = '>' || c = '[' || isPySpace c || c.isDigit || c = '-')

/-- `re_tag = (<[^<>\[\s\d-][^>]*>)` matched at the start of a string:
`<`, one admitted character, then `[^>]*` (which cannot cross a `>`, so
the closing `>` is the first `>` thereafter).  Returns the match length. -/
def re_tag_matchAt (l : Str) : Option Nat :=
  match l with
  | '<' :: c :: rest =>
    if re_tagSecond c then
      match rest.drop (rest.takeWhile (fun d => !(d = '>'))).length with
      | '>' :: _ => some (2 + (rest.takeWhile (fun d => !(d = '>'))).length + 1)
      | _ => none
    else none
  | _ => none

/-- Characters admitted by `[^<>/\s]`, the class for the first name
character of `re_opening_tag`. -/
def isNameStart (c : Char) : Bool :=
  !(c = '<' || c = '>' || c = '/' || isPySpace c)

/-- Scan for the first `>` and require the character right before it not
to be `/` (the `(?<!/)` lookbehind); `pr` is the previous character. -/
def openTailScan (pr : Char) : Str → Bool
  | [] => false
  | d :: rest => if d = '>' then pr != '/' else openTailScan d rest

/-- `re_opening_tag = <(?:[^<>/\s]+)[^>]*(?<!/)>` matched at the start:
`<`, a name-start character, and a first `>` not preceded by `/` (the
two quantified classes both exclude `>`, so the matched `>` is the first
one, and the name group only constrains its first character). -/
def re_opening_tag_match : Str → Bool
  | '<' :: c :: rest => isNameStart c && openTailScan c rest
  | _ => false

/-- Scan for a `>` before any newline (`.` without `DOTALL` excludes
`'\n'` only). -/
def gtBeforeNl : Str → Bool
  | [] => false
  | d :: rest => if d = '>' then true else if d = '\n' then false else gtBeforeNl rest

/-- `re_closing_tag = <[/].*?>` matched at the start: `</` then a `>` on
the same line. -/
def re_closing_tag_match : Str → Bool
  | '<' :: '/' :: rest => gtBeforeNl rest
  | _ => false

/-! ### Regex substitution and splitting

Fuelled left-to-right scans: the fuel-exhausted branches leave the rest
of the string untouched and are unreachable when the fuel is at least the
string length (every match consumes at least one character; a `some 0`
match length cannot occur and is treated as no match). -/

/-- `re.sub(pattern, repl, s)` for a matcher that returns the replacement
text and the match length. -/
def reSubGo (matchAt : Str → Option (Str × Nat)) : Nat → Str → Str
  | _, [] => []
  | 0, l => l
  | fuel + 1, c :: rest =>
    match matchAt (c :: rest) with
    | some (rep, n + 1) => rep ++ reSubGo matchAt fuel (rest.drop n)
    | _ => c :: reSubGo matchAt fuel rest

/-- `re.sub` over a whole string. -/
def reSub (matchAt : Str → Option (Str × Nat)) (s : Str) : Str :=
  reSubGo matchAt s.length s

/-- `re.split` with the whole pattern as one capturing group: returns the
leading non-match piece, then alternating match and gap pieces (a
trailing empty piece included, as in Python). -/
def reSplitGo (matchAt : Str → Option Nat) : Nat → Str → Str → List Str
  | _, acc, [] => [acc.reverse]
  | 0, acc, l => [acc.reverse ++ l]
  | fuel + 1, acc, c :: rest =>
    match matchAt (c :: rest) with
    | some (n + 1) =>
      acc.reverse :: (c :: rest).take (n + 1) ::
        reSplitGo matchAt fuel [] ((c :: rest).drop (n + 1))
    | _ => reSplitGo matchAt fuel (c :: acc) rest

/-- `re_tag.split(rawstring)`. -/
def re_tag_split (s : Str) : List Str :=
  reSplitGo re_tag_matchAt s.length [] s

/-- `[part for part in re_tag.split(rawstring) if part != ""]`: the
tag/value token stream handed to repair and the renderers. -/
def xmlParts (s : Str) : List Str :=
  (re_tag_split s).filter (fun p => !p.isEmpty)

/-! ### The three `re.sub` matchers of `process` and `clean_tags` -/

/-- The strip pass `re.sub(r"\s*(<[^<>]+>)\s*", r"\1", rawstring)`
matched at the start of a string: leading whitespace run, `<`, a
non-empty run without angle brackets, `>`, trailing whitespace run.
Returns the kept tag (the capture) and the match length. -/
def stripMatchAt (l : Str) : Option (Str × Nat) :=
  match l.drop (l.takeWhile isPySpace).length with
  | '<' :: rest =>
    match rest.drop (rest.takeWhile (fun c => !(c = '<' || c = '>'))).length with
    | '>' :: rest2 =>
      if (rest.takeWhile (fun c => !(c = '<' || c = '>'))).isEmpty then none
      else
        some ('<' :: (rest.takeWhile (fun c => !(c = '<' || c = '>')) ++ ['>']),
          (l.takeWhile isPySpace).length + 1 +
            (rest.takeWhile (fun c => !(c = '<' || c = '>'))).length + 1 +
            (rest2.takeWhile isPySpace).length)
    | _ => none
  | _ => none

/-- `re_namespace = " xmlns[^\"']+['\"][^\"']+[\"']"` matched at the
start: the literal ` xmlns`, a non-empty run without quotes, a quote, a
non-empty run without quotes, a quote (both runs are maximal, so the
character ending each run is the quote the pattern consumes).  The sub
deletes the match, so the replacement is empty. -/
def namespaceMatchAt (l : Str) : Option (Str × Nat) :=
  match l with
  | ' ' :: 'x' :: 'm' :: 'l' :: 'n' :: 's' :: rest =>
    match rest.drop (rest.takeWhile (fun c => !(c = '"' || c = '\''))).length with
    | _ :: rest2 =>
      if (rest.takeWhile (fun c => !(c = '"' || c = '\''))).isEmpty then none
      else
        match rest2.drop (rest2.takeWhile (fun c => !(c = '"' || c = '\''))).length with
        | _ :: _ =>
          if (rest2.takeWhile (fun c => !(c = '"' || c = '\''))).isEmpty then none
          else
            some ([], 6 + (rest.takeWhile (fun c => !(c = '"' || c = '\''))).length + 1 +
              (rest2.takeWhile (fun c => !(c = '"' || c = '\''))).length + 1)
        | [] => none
    | [] => none
  | _ => none

/-- The class run of `[^:<> ]{0,20}` followed by the literal `:` of
`re_namespace_prefix`: the maximal class run must be at most 20 long and
be followed by `:` (shorter runs end at a class character, so
backtracking cannot rescue a failure).  Returns the run length. -/
def colonAfterClass (l : Str) : Option Nat :=
  if (l.takeWhile (fun c => !(c = ':' || c = '<' || c = '>' || c = ' '))).length ≤ 20 then
    match l.drop (l.takeWhile (fun c => !(c = ':' || c = '<' || c = '>' || c = ' '))).length with
    | ':' :: _ => some (l.takeWhile (fun c => !(c = ':' || c = '<' || c = '>' || c = ' '))).length
    | _ => none
  else none

/-- `re_namespace_prefix = (<\/?)[^:<> ]{0,20}:` matched at the start,
replaced by the capture `(<\/?)`: after `</` the engine first tries the
class run there and on failure backtracks to let the class consume the
`/` (the retry can in fact never succeed, but it mirrors the engine).
Returns the capture and the match length. -/
def nsPrefMatchAt (l : Str) : Option (Str × Nat) :=
  match l with
  | '<' :: '/' :: rest2 =>
    (match colonAfterClass rest2 with
     | some k => some (['<', '/'], 2 + k + 1)
     | none =>
       match colonAfterClass ('/' :: rest2) with
       | some k => some (['<'], 1 + k + 1)
       | none => none)
  | '<' :: rest =>
    (match colonAfterClass rest with
     | some k => some (['<'], 1 + k + 1)
     | none => none)
  | _ => none

/-- `clean_tags`: delete namespace declarations, then strip namespace
prefixes from tag names (tag text kept by the capture). -/
def clean_tags (xml : Str) : Str :=
  reSub nsPrefMatchAt (reSub namespaceMatchAt xml)

/-! ### Tag repair (`repair_tags`) -/

/-- `part[1:-1].split(" ", 1)[0]`: the tag text without the angle
brackets, up to the first space. -/
def tagNameOf (part : Str) : Str :=
  ((part.drop 1).dropLast).takeWhile (fun c => !(c = ' '))

/-- The loop of `repair_tags` with the `nodes` stack made explicit (most
recently opened name first).  An opening tag pushes its name; a token
matching the closing-tag pattern pops the stack whenever it is non-empty
(`nodes.pop()` runs inside the conditional expression regardless of the
token's text), and the popped name is substituted only into the exact
token `</>`; with an empty stack the token is left unchanged. -/
def repair_tags_go (nodes : List Str) : List Str → List Str
  | [] => []
  | part :: rest =>
    if re_opening_tag_match part then
      part :: repair_tags_go (tagNameOf part :: nodes) rest
    else if re_closing_tag_match part then
      match nodes with
      | [] => part :: repair_tags_go [] rest
      | n :: nodes2 =>
        (if part = ['<', '/', '>'] then '<' :: '/' :: (n ++ ['>']) else part) ::
          repair_tags_go nodes2 rest
    else part :: repair_tags_go nodes rest

/-- `repair_tags(xml_parts)`. -/
def repair_tags (xml_parts : List Str) : List Str :=
  repair_tags_go [] xml_parts

/-! ### Renderers and `process` -/

/-- The character at index 1 (`part[1]`), when it exists. -/
def charAt1 : Str → Option Char
  | _ :: c :: _ => some c
  | _ => none

/-- The second-to-last character (`part[-2]`), when it exists. -/
def secondLast (l : Str) : Option Char := charAt1 l.reverse

/-- Python `part[:2] == "</"` (slicing never fails). -/
def firstTwoLtSlash : Str → Bool
  | '<' :: '/' :: _ => true
  | _ => false

/-- Python `part[-2:] == "/>"`. -/
def lastTwoSlashGt (l : Str) : Bool :=
  match l.reverse with
  | '>' :: '/' :: _ => true
  | _ => false

/-- Python `indent * count`. -/
def indentRep (indent : Str) (n : Nat) : Str :=
  (List.replicate n indent).flatten

/-- The loop of `prettify`: `cnt` is `indent_count`, `pr` the previous
part (`""` for the first element).  Tag classification follows the
Python branch order: closing (`part[1] == '/'`, decrement first, floor
at zero, newline only after a closing or self-closing previous part),
prolog (`part[1] == '?'`, indented, no newline), self-closing
(`part[-2] == '/'`), declaration (`part[1] == '!'`, verbatim), opening
(newline, indent, increment); values get a newline only after a closing
or self-closing previous part. -/
def prettifyGo (indent : Str) : Nat → Str → List Str → List Str
  | _, _, [] => []
  | cnt, pr, part :: rest =>
    if (re_tag_matchAt part).isSome then
      if charAt1 part = some '/' then
        (if firstTwoLtSlash pr || lastTwoSlashGt pr
         then '\n' :: (indentRep indent (cnt - 1) ++ part) else part) ::
          prettifyGo indent (cnt - 1) part rest
      else if charAt1 part = some '?' then
        (indentRep indent cnt ++ part) :: prettifyGo indent cnt part rest
      else if secondLast part = some '/' then
        ('\n' :: (indentRep indent cnt ++ part)) :: prettifyGo indent cnt part rest
      else if charAt1 part = some '!' then
        part :: prettifyGo indent cnt part rest
      else
        ('\n' :: (indentRep indent cnt ++ part)) :: prettifyGo indent (cnt + 1) part rest
    else
      (if firstTwoLtSlash pr || lastTwoSlashGt pr then '\n' :: part else part) ::
        prettifyGo indent cnt part rest

/-- `prettify(xml_parts, indent)`. -/
def prettify (xml_parts : List Str) (indent : Str) : List Str :=
  prettifyGo indent 0 [] xml_parts

/-- The loop of `key_value`: closing tags only decrement (no output),
prologs are skipped, self-closing tags render `part[1:-2] + ":"` on a
new line, declarations pass through, opening tags render
`part[1:-1] + ": "` on a new line and increment; values as in
`prettify`. -/
def key_valueGo (indent : Str) : Nat → Str → List Str → List Str
  | _, _, [] => []
  | cnt, pr, part :: rest =>
    if (re_tag_matchAt part).isSome then
      if charAt1 part = some '/' then
        key_valueGo indent (cnt - 1) part rest
      else if charAt1 part = some '?' then
        key_valueGo indent cnt part rest
      else if secondLast part = some '/' then
        ('\n' :: (indentRep indent cnt ++ (((part.drop 1).dropLast.dropLast) ++ [':']))) ::
          key_valueGo indent cnt part rest
      else if charAt1 part = some '!' then
        part :: key_valueGo indent cnt part rest
      else
        ('\n' :: (indentRep indent cnt ++ (((part.drop 1).dropLast) ++ [':', ' ']))) ::
          key_valueGo indent (cnt + 1) part rest
    else
      (if firstTwoLtSlash pr || lastTwoSlashGt pr then '\n' :: part else part) ::
        key_valueGo indent cnt part rest

/-- `key_value(xml_parts, indent)`. -/
def key_value (xml_parts : List Str) (indent : Str) : List Str :=
  key_valueGo indent 0 [] xml_parts

/-- First match of the preface pattern `(<[^<>]+)(<)`: group 1 is `<`
followed by a non-empty angle-bracket-free run, group 2 the next `<`.
Returns the length of group 1 (the second `<` stays in the tokenized
remainder). -/
def prefaceMatchAt (l : Str) : Option Nat :=
  match l with
  | '<' :: rest =>
    if (rest.takeWhile (fun c => !(c = '<' || c = '>'))).isEmpty then none
    else
      match rest.drop (rest.takeWhile (fun c => !(c = '<' || c = '>'))).length with
      | '<' :: _ => some (1 + (rest.takeWhile (fun c => !(c = '<' || c = '>'))).length)
      | _ => none
  | _ => none

/-- `re.split("(<[^<>]+)(<)", rawstring, maxsplit=1)` condensed to what
`process` uses: on the first match, the text up to and including group 1
(the preface) and the remainder starting at group 2's `<`; `none` when
the pattern does not occur. -/
def findPreface : Str → Option (Str × Str)
  | [] => none
  | c :: rest =>
    match prefaceMatchAt (c :: rest) with
    | some k => some ((c :: rest).take k, (c :: rest).drop k)
    | none => (findPreface rest).map (fun pr => (c :: pr.1, pr.2))

/-- The `output_format` argument of `process`: `"pretty"`, `"kv"`, or any
other string (which leaves the token stream unrendered). -/
inductive OutputFormat
  | pretty
  | kv
  | other
deriving DecidableEq

/-- `process(rawstring, strip, clean, repair, output_format,
indentation)`: optional strip and clean passes, preface extraction,
tokenization, optional repair (skipped for the kv format), rendering,
and reassembly `preface + "".join(xml_parts)`. -/
def process (rawstring : Str) (strip clean repair : Bool)
    (output_format : OutputFormat) (indentation : Str) : Str :=
  let s1 := if strip then reSub stripMatchAt rawstring else rawstring
  let s2 := if clean then clean_tags s1 else s1
  let pf := match findPreface s2 with
    | some pr => pr
    | none => (([] : Str), s2)
  let parts0 := xmlParts pf.2
  let parts1 := if repair = true ∧ output_format ≠ OutputFormat.kv
    then repair_tags parts0 else parts0
  let parts2 := match output_format with
    | OutputFormat.pretty => prettify parts1 indentation
    | OutputFormat.kv => key_value parts1 indentation
    | OutputFormat.other => parts1
  pf.1 ++ parts2.flatten

/-! ### Spec-side definitions for the repair claims -/

/-- The repair step as the claim states it: opening tags push; only the
exact token `</>` pops (substituting the popped name, or staying
unchanged on an empty stack); well-formed closing tags touch neither the
stack nor the token.  Stated from the claim's words, to be compared with
`repair_tags`. -/
def repairClaimedGo (nodes : List Str) : List Str → List Str
  | [] => []
  | part :: rest =>
    if re_opening_tag_match part then
      part :: repairClaimedGo (tagNameOf part :: nodes) rest
    else if part = ['<', '/', '>'] then
      match nodes with
      | [] => part :: repairClaimedGo [] rest
      | n :: nodes2 => ('<' :: '/' :: (n ++ ['>'])) :: repairClaimedGo nodes2 rest
    else part :: repairClaimedGo nodes rest

/-- Repair as the claim describes it (see `repairClaimedGo`). -/
def repair_tags_claimed (xml_parts : List Str) : List Str :=
  repairClaimedGo [] xml_parts

/-- One scan step of the amended repair description: on an opening tag
push the name and keep the token; on any token matching the closing-tag
pattern pop the stack when it is non-empty and replace the token by the
popped name only when the token is exactly `</>`; keep every other token
and leave the stack alone.  State is the stack and the output so far. -/
def repairSpecStep (st : List Str × List Str) (part : Str) : List Str × List Str :=
  if re_opening_tag_match part then (tagNameOf part :: st.1, st.2 ++ [part])
  else if re_closing_tag_match part then
    match st.1 with
    | [] => ([], st.2 ++ [part])
    | n :: ns =>
      (ns, st.2 ++ [if part = ['<', '/', '>'] then '<' :: '/' :: (n ++ ['>']) else part])
  else (st.1, st.2 ++ [part])

/-- The amended repair description as a left-to-right scan. -/
def repairSpec (parts : List Str) : List Str :=
  (parts.foldl repairSpecStep ([], [])).2

/-- Concrete witness input: the identity split of a never-matching
separator (`re.split` returns the whole string as the only piece). -/
def wId : Str → List Str := fun s => [s]

/-- Concrete witness input: a two-line stream. -/
def wLines : List Str := ["ab\n".toList, "c\r\n".toList]

/-- Scanner for `resplitParenX`: each match of the literal `x` emits the
pending non-match piece and then two pieces for the two capture groups
(the added outer group, i.e. the whole match, and the user's own inner
group), as `re.split` does when the pattern holds several groups. -/
def resplitParenXGo (acc : Str) : Str → List Str
  | [] => [acc.reverse]
  | c :: rest =>
    if c = 'x' then acc.reverse :: ['x'] :: ['x'] :: resplitParenXGo [] rest
    else resplitParenXGo (c :: acc) rest

/-- Model of `sep.split(line)` for the user separator `"(x)"`, which
`readevents_split` compiles as `"((x))"`: a pattern with two capture
groups, so the returned pieces no longer alternate match/gap (on
`"axb\n"` it returns `['a', 'x', 'x', 'b\n']`, as in Python).  Used to
exhibit reassembly failure for separators that contain their own capture
groups. -/
def resplitParenX : Str → List Str := fun line => resplitParenXGo [] line

/-! ## Theorems -/

theorem dropLast_snoc {α : Type} (l : List α) (a : α) : (l ++ [a]).dropLast = l := by
  rw [List.dropLast_concat]

theorem chomp_append_removedTerm (x : Str) : chomp x ++ removedTerm x = x := by
  unfold chomp removedTerm
  split_ifs with h1 h2 h3
  · obtain ⟨p, hp⟩ := h1
    subst hp
    rw [show p ++ ['\r', '\n'] = (p ++ ['\r']) ++ ['\n'] by simp, dropLast_snoc, dropLast_snoc]
    simp
  · obtain ⟨p, hp⟩ := h2
    subst hp
    rw [dropLast_snoc]
  · obtain ⟨p, hp⟩ := h3
    subst hp
    rw [dropLast_snoc]
  · simp

theorem removedTerm_cases (x : Str) :
    removedTerm x = [] ∨ removedTerm x = ['\n'] ∨ removedTerm x = ['\r'] ∨
      removedTerm x = ['\r', '\n'] := by
  unfold removedTerm
  split_ifs <;> simp

theorem bufAppend_eq (b c : Str) : bufAppend b c = b ++ c := by
  unfold bufAppend
  split <;> simp_all

theorem stepLine_eq_raw (resplit : Str → List Str) (b l : Str) :
    stepLine resplit b l =
      ((rawStepLine resplit b l).1, (rawStepLine resplit b l).2.map chomp) := by
  cases hsp : resplit l with
  | nil => simp [stepLine, rawStepLine, hsp]
  | cons continuation parts =>
    cases hil : initLast (pairUp parts) with
    | none => simp [stepLine, rawStepLine, hsp, hil]
    | some ci =>
      obtain ⟨complete, incomplete⟩ := ci
      by_cases hb : bufAppend b continuation = [] <;>
        simp [stepLine, rawStepLine, hsp, hil, hb]

theorem readevents_eq_raw (resplit : Str → List Str) :
    ∀ (lines : List Str) (b : Str),
      readevents_go resplit b lines = (rawevents_go resplit b lines).map chomp := by
  intro lines
  induction lines with
  | nil => intro b; rfl
  | cons line rest ih =>
    intro b
    rw [readevents_go, rawevents_go, stepLine_eq_raw, List.map_append, ih]

theorem pairUp_flatten : ∀ parts : List Str, parts.length % 2 = 0 →
    (pairUp parts).flatten = parts.flatten
  | [], _ => rfl
  | [a], h => by simp at h
  | a :: b :: t, h => by
    have ht : t.length % 2 = 0 := by simp [List.length_cons] at h; omega
    simp [pairUp, pairUp_flatten t ht]

theorem pairUp_eq_nil : ∀ parts : List Str, parts.length % 2 = 0 → pairUp parts = [] →
    parts = []
  | [], _, _ => rfl
  | [a], h, _ => by simp at h
  | _ :: _ :: _, _, hp => by simp [pairUp] at hp

theorem initLast_none : ∀ l : List Str, initLast l = none → l = []
  | [], _ => rfl
  | [a], h => by simp [initLast] at h
  | a :: b :: t, h => by
    rw [initLast] at h
    cases hr : initLast (b :: t) with
    | none => exact absurd (initLast_none (b :: t) hr) (by simp)
    | some ci => obtain ⟨c, i⟩ := ci; rw [hr] at h; simp at h

theorem initLast_some : ∀ (l : List Str) (c : List Str) (i : Str),
    initLast l = some (c, i) → c ++ [i] = l
  | [], _, _, h => by simp [initLast] at h
  | [a], c, i, h => by
    simp [initLast] at h
    obtain ⟨hc, hi⟩ := h
    subst hc
    subst hi
    rfl
  | a :: b :: t, c, i, h => by
    rw [initLast] at h
    cases hr : initLast (b :: t) with
    | none => rw [hr] at h; simp at h
    | some ci =>
      obtain ⟨c', i'⟩ := ci
      rw [hr] at h
      simp at h
      obtain ⟨hc, hi⟩ := h
      have hrec := initLast_some (b :: t) c' i' hr
      subst hc
      subst hi
      rw [List.cons_append, hrec]

theorem rawStepLine_flatten (resplit : Str → List Str) (b l : Str)
    (h1 : (resplit l).flatten = l) (h2 : (resplit l).length % 2 = 1) :
    (rawStepLine resplit b l).2.flatten ++ (rawStepLine resplit b l).1 = b ++ l := by
  cases hsp : resplit l with
  | nil => rw [hsp] at h2; simp at h2
  | cons continuation parts =>
    rw [hsp] at h1 h2
    have hparts : parts.length % 2 = 0 := by simp [List.length_cons] at h2; omega
    have hflat : continuation ++ parts.flatten = l := by simpa using h1
    cases hil : initLast (pairUp parts) with
    | none =>
      have hnil : parts = [] := pairUp_eq_nil parts hparts (initLast_none _ hil)
      subst hnil
      simp only [List.flatten_nil, List.append_nil] at hflat
      simp [rawStepLine, hsp, hil, bufAppend_eq, hflat]
    | some ci =>
      obtain ⟨complete, incomplete⟩ := ci
      have hci : complete ++ [incomplete] = pairUp parts := initLast_some _ _ _ hil
      have hkey : complete.flatten ++ incomplete = parts.flatten := by
        rw [← pairUp_flatten parts hparts, ← hci]
        simp
      have hstep : rawStepLine resplit b l =
          (incomplete,
            (if bufAppend b continuation = [] then []
             else [bufAppend b continuation]) ++ complete) := by
        simp [rawStepLine, hsp, hil]
      rw [hstep]
      by_cases hb : bufAppend b continuation = []
      · have hb2 : b ++ continuation = [] := by rw [← bufAppend_eq, hb]
        obtain ⟨hbn, hcn⟩ := List.append_eq_nil.mp hb2
        rw [if_pos hb]
        simp only [List.nil_append]
        rw [hkey, hbn, List.nil_append, ← hflat, hcn, List.nil_append]
      · rw [if_neg hb]
        have hfl : ([bufAppend b continuation] ++ complete).flatten
            = bufAppend b continuation ++ complete.flatten := by simp
        rw [hfl, bufAppend_eq]
        simp only [List.append_assoc]
        rw [hkey, hflat]

theorem rawevents_flatten (resplit : Str → List Str) :
    ∀ (lines : List Str) (b : Str),
      (∀ l ∈ lines, (resplit l).flatten = l) →
      (∀ l ∈ lines, (resplit l).length % 2 = 1) →
      (rawevents_go resplit b lines).flatten = b ++ lines.flatten := by
  intro lines
  induction lines with
  | nil => intro b _ _; simp [rawevents_go]
  | cons line rest ih =>
    intro b h1 h2
    rw [rawevents_go, List.flatten_append,
      ih _ (fun l hl => h1 l (by simp [hl])) (fun l hl => h2 l (by simp [hl])),
      ← List.append_assoc,
      rawStepLine_flatten resplit b line (h1 line (by simp)) (h2 line (by simp))]
    simp

theorem zipWith_chomp_removedTerm : ∀ l : List Str,
    List.zipWith (fun r t => r ++ t) (l.map chomp) (l.map removedTerm) = l
  | [] => rfl
  | x :: t => by
    simp [zipWith_chomp_removedTerm t, chomp_append_removedTerm x]

/-- C1 amended: for every line-oriented input stream and every separator
containing no capture groups of its own — so its compiled form
`"(" + sep + ")"` has exactly one group and `re.split` returns, for
every line, pieces that concatenate to the line in odd count (the two
hypotheses below) — re-inserting onto each emitted record the trailing
line terminator the chomp rule removed from it and concatenating
reproduces the original input stream exactly.  For separators with
their own capture groups the extra group pieces break the zip pairing
and reassembly fails; see the accompanying counterexample. -/
theorem readevents_reassembly (resplit : Str → List Str) (lines : List Str)
    (h1 : ∀ l ∈ lines, (resplit l).flatten = l)
    (h2 : ∀ l ∈ lines, (resplit l).length % 2 = 1) :
    ∃ ts : List Str,
      ts.length = (readevents_split resplit lines).length ∧
      (∀ t ∈ ts, t = [] ∨ t = ['\n'] ∨ t = ['\r'] ∨ t = ['\r', '\n']) ∧
      (List.zipWith (fun r t => r ++ t) (readevents_split resplit lines) ts).flatten
        = lines.flatten := by
  refine ⟨(rawRecords resplit lines).map removedTerm, ?_, ?_, ?_⟩
  · rw [readevents_split, readevents_eq_raw]
    simp [rawRecords]
  · intro t ht
    obtain ⟨x, _, hx⟩ := List.mem_map.mp ht
    subst hx
    exact removedTerm_cases x
  · rw [readevents_split, readevents_eq_raw]
    rw [show rawevents_go resplit [] lines = rawRecords resplit lines from rfl,
      zipWith_chomp_removedTerm, rawRecords,
      rawevents_flatten resplit lines [] h1 h2]
    rfl

/-- Witness for C1 at a concrete stream and a concrete (identity) split. -/
theorem readevents_reassembly_witness :
    (∀ l ∈ wLines, (wId l).flatten = l) ∧
    (∀ l ∈ wLines, (wId l).length % 2 = 1) ∧
    ∃ ts : List Str,
      ts.length = (readevents_split wId wLines).length ∧
      (∀ t ∈ ts, t = [] ∨ t = ['\n'] ∨ t = ['\r'] ∨ t = ['\r', '\n']) ∧
      (List.zipWith (fun r t => r ++ t) (readevents_split wId wLines) ts).flatten
        = wLines.flatten :=
  ⟨by decide, by decide, readevents_reassembly wId wLines (by decide) (by decide)⟩

theorem readevents_go_no_match (resplit : Str → List Str) :
    ∀ (lines : List Str) (b : Str), (∀ l ∈ lines, resplit l = [l]) →
      readevents_go resplit b lines = [chomp (b ++ lines.flatten)] := by
  intro lines
  induction lines with
  | nil => intro b _; simp [readevents_go]
  | cons line rest ih =>
    intro b h
    have hl : resplit line = [line] := h line (by simp)
    have hstep : stepLine resplit b line = (bufAppend b line, []) := by
      simp [stepLine, hl, pairUp, initLast]
    rw [readevents_go, hstep]
    simp only [List.nil_append]
    rw [ih (bufAppend b line) (fun l hl2 => h l (by simp [hl2])), bufAppend_eq]
    simp [List.append_assoc]

/-- C6: when the separator matches nowhere in the stream's lines (so
every `re.split` returns the whole line as the only piece), `segment`
yields exactly one record: the whole input with exactly one trailing
line terminator removed by the chomp rule. -/
theorem readevents_no_match_single_record (resplit : Str → List Str) (lines : List Str)
    (h : ∀ l ∈ lines, resplit l = [l]) :
    readevents_split resplit lines = [chomp lines.flatten] ∧
    chomp lines.flatten ++ removedTerm lines.flatten = lines.flatten ∧
    (removedTerm lines.flatten = [] ∨ removedTerm lines.flatten = ['\n'] ∨
      removedTerm lines.flatten = ['\r'] ∨ removedTerm lines.flatten = ['\r', '\n']) := by
  refine ⟨?_, chomp_append_removedTerm _, removedTerm_cases _⟩
  rw [readevents_split, readevents_go_no_match resplit lines [] h]
  rfl

/-- Witness for C6 at a concrete stream and never-matching split. -/
theorem readevents_no_match_single_record_witness :
    (∀ l ∈ wLines, wId l = [l]) ∧
    (readevents_split wId wLines = [chomp wLines.flatten] ∧
      chomp wLines.flatten ++ removedTerm wLines.flatten = wLines.flatten ∧
      (removedTerm wLines.flatten = [] ∨ removedTerm wLines.flatten = ['\n'] ∨
        removedTerm wLines.flatten = ['\r'] ∨
        removedTerm wLines.flatten = ['\r', '\n'])) :=
  ⟨by decide, readevents_no_match_single_record wId wLines (by decide)⟩

/-- C2: segment applied to the stream `"2020-01-01 A\nmore A\n2020-01-02 B\n"`
with separator `^\d{4}-\d{2}-\d{2}` yields exactly the two records
`"2020-01-01 A\nmore A"` and `"2020-01-02 B"`, in that order. -/
theorem readevents_concrete_scenario :
    readevents_split resplitDate (toLines "2020-01-01 A\nmore A\n2020-01-02 B\n".toList)
      = ["2020-01-01 A\nmore A".toList, "2020-01-02 B".toList] := by decide

/-- C7: when the separator pattern fails to compile, the run consists of
the raised `PatternError` alone: no line is ever read from the input
source and no record is emitted, whatever the stream holds. -/
theorem segment_invalid_pattern_fails_fast (e : PatternError) (lines : List Str) :
    segmentTrace (Except.error e) lines = [SegEvent.raised e] ∧
    (∀ l, SegEvent.readLine l ∉ segmentTrace (Except.error e) lines) ∧
    (∀ r, SegEvent.emit r ∉ segmentTrace (Except.error e) lines) := by
  refine ⟨rfl, ?_, ?_⟩ <;> intro x hx <;> simp [segmentTrace] at hx

theorem traceGo_emits (resplit : Str → List Str) :
    ∀ (lines : List Str) (b : Str),
      (traceGo resplit b lines).filterMap
          (fun ev => match ev with | SegEvent.emit r => some r | _ => none)
        = readevents_go resplit b lines := by
  intro lines
  induction lines with
  | nil => intro b; rfl
  | cons line rest ih =>
    intro b
    rw [traceGo, readevents_go]
    simp only [List.filterMap_cons, List.filterMap_append, List.filterMap_map, ih]
    congr 1
    induction (stepLine resplit b line).2 with
    | nil => rfl
    | cons r t iht => simp [List.filterMap_cons, iht]

theorem reSplitGo_flatten (m : Str → Option Nat) :
    ∀ (fuel : Nat) (acc l : Str), (reSplitGo m fuel acc l).flatten = acc.reverse ++ l := by
  intro fuel
  induction fuel with
  | zero => intro acc l; cases l <;> simp [reSplitGo]
  | succ fuel ih =>
    intro acc l
    cases l with
    | nil => simp [reSplitGo]
    | cons c rest =>
      simp only [reSplitGo]
      cases hm : m (c :: rest) with
      | none => simp [ih]
      | some n =>
        cases n with
        | zero => simp [ih]
        | succ k => simp [ih, List.take_append_drop]

theorem flatten_filter_nonempty : ∀ l : List Str,
    (l.filter (fun p => !p.isEmpty)).flatten = l.flatten
  | [] => rfl
  | a :: t => by
    cases a with
    | nil => simp [List.filter_cons, flatten_filter_nonempty t]
    | cons c cs => simp [List.filter_cons, flatten_filter_nonempty t]

/-- C8: tokenization round trip: for every string handed to the
tokenizer, concatenating the produced tag/value tokens in order
reproduces that string exactly. -/
theorem tokenize_round_trip (s : Str) : (xmlParts s).flatten = s := by
  rw [xmlParts, flatten_filter_nonempty, re_tag_split, reSplitGo_flatten]
  rfl

theorem repair_tags_go_frame : ∀ (parts : List Str) (nodes : List Str),
    List.Forall₂ (fun out inp => inp ≠ ['<', '/', '>'] → out = inp)
      (repair_tags_go nodes parts) parts
  | [], _ => List.Forall₂.nil
  | part :: rest, nodes => by
    show List.Forall₂ _
      (if re_opening_tag_match part then
        part :: repair_tags_go (tagNameOf part :: nodes) rest
      else if re_closing_tag_match part then
        match nodes with
        | [] => part :: repair_tags_go [] rest
        | n :: nodes2 =>
          (if part = ['<', '/', '>'] then '<' :: '/' :: (n ++ ['>']) else part) ::
            repair_tags_go nodes2 rest
      else part :: repair_tags_go nodes rest) _
    split
    · exact List.Forall₂.cons (fun _ => rfl) (repair_tags_go_frame rest _)
    · split
      · split
        · exact List.Forall₂.cons (fun _ => rfl) (repair_tags_go_frame rest _)
        · refine List.Forall₂.cons (fun h => ?_) (repair_tags_go_frame rest _)
          rw [if_neg h]
      · exact List.Forall₂.cons (fun _ => rfl) (repair_tags_go_frame rest _)

/-- C9: `repair_tags` is frame-preserving: the output has the same
length as the input and every element whose input is not the exact token
`</>` is returned unchanged (only `</>` elements are ever replaced). -/
theorem repair_tags_frame (parts : List Str) :
    (repair_tags parts).length = parts.length ∧
    List.Forall₂ (fun out inp => inp ≠ ['<', '/', '>'] → out = inp)
      (repair_tags parts) parts :=
  ⟨(repair_tags_go_frame parts []).length_eq, repair_tags_go_frame parts []⟩

/-- C3 counterexample: on the token list `["<a>", "<b>", "</b>", "</>"]`
the code replaces `</>` by `</a>` (the well-formed `</b>` popped `b`
first), while the claimed pop-only-on-`</>` discipline would produce
`</b>`; so the claim's description of the stack dynamics is false. -/
theorem repair_tags_pop_counterexample :
    repair_tags ["<a>".toList, "<b>".toList, "</b>".toList, "</>".toList]
        = ["<a>".toList, "<b>".toList, "</b>".toList, "</a>".toList] ∧
    repair_tags_claimed ["<a>".toList, "<b>".toList, "</b>".toList, "</>".toList]
        = ["<a>".toList, "<b>".toList, "</b>".toList, "</b>".toList] ∧
    repair_tags ["<a>".toList, "<b>".toList, "</b>".toList, "</>".toList]
        ≠ repair_tags_claimed ["<a>".toList, "<b>".toList, "</b>".toList, "</>".toList] :=
  ⟨by decide, by decide, by decide⟩

theorem repairSpec_foldl : ∀ (parts : List Str) (nodes out : List Str),
    (parts.foldl repairSpecStep (nodes, out)).2 = out ++ repair_tags_go nodes parts
  | [], nodes, out => by simp [repair_tags_go]
  | part :: rest, nodes, out => by
    by_cases hA : re_opening_tag_match part
    · simp only [List.foldl_cons, repairSpecStep, hA, if_true, repair_tags_go]
      rw [repairSpec_foldl rest]
      simp
    · by_cases hB : re_closing_tag_match part
      · cases nodes with
        | nil =>
          simp only [List.foldl_cons, repairSpecStep, hA, hB, if_true, if_false,
            repair_tags_go]
          rw [repairSpec_foldl rest]
          simp
        | cons n ns =>
          simp only [List.foldl_cons, repairSpecStep, hA, hB, if_true, if_false,
            repair_tags_go]
          rw [repairSpec_foldl rest]
          simp
      · simp only [List.foldl_cons, repairSpecStep, hA, hB, if_false, repair_tags_go]
        rw [repairSpec_foldl rest]
        simp

/-- C3 amended: during repair every opening tag pushes its name; every
token matching the closing-tag pattern pops the stack whenever it is
non-empty (well-formed closing tags included); only the exact malformed
token `</>` is replaced by the popped name (and is left unchanged when
the stack is empty); all other tokens leave the stack untouched.
`repair_tags` coincides with this scan on every token list. -/
theorem repair_tags_amended_stack_discipline (parts : List Str) :
    repair_tags parts = repairSpec parts := by
  rw [repairSpec, repairSpec_foldl parts [] [], repair_tags]
  rfl

/-- C4 counterexample: the claimed output `"\n<a>\n  <b>x</b>"` is wrong:
`</a>` is preceded by the closing tag `</b>`, so the pretty renderer puts
it on a fresh line and the result ends with `"\n</a>"`. -/
theorem process_pretty_concrete_counterexample :
    process "<a><b>x</b></a>".toList true true false OutputFormat.pretty "  ".toList
      ≠ "\n<a>\n  <b>x</b>".toList := by decide

/-- C4 amended: `reformat("<a><b>x</b></a>", style=pretty, indent="  ")`
returns `"\n<a>\n  <b>x</b>\n</a>"`: `</b>` stays inline (its previous
token is the value `"x"`), while `</a>` goes on a new line because the
token before it is the closing tag `</b>`. -/
theorem process_pretty_concrete_amended :
    process "<a><b>x</b></a>".toList true true false OutputFormat.pretty "  ".toList
      = "\n<a>\n  <b>x</b>\n</a>".toList := by decide

/-- C5 counterexample: `clean` is not idempotent: on `"<a:b:c>"` one
application removes only the first prefix (`"<b:c>"`, since scanning
resumes after the replaced match), and a second application removes
another (`"<c>"`). -/
theorem clean_tags_not_idempotent :
    clean_tags "<a:b:c>".toList = "<b:c>".toList ∧
    clean_tags (clean_tags "<a:b:c>".toList) = "<c>".toList ∧
    clean_tags (clean_tags "<a:b:c>".toList) ≠ clean_tags "<a:b:c>".toList :=
  ⟨by decide, by decide, by decide⟩

theorem reSubGo_id_of_no_match (m : Str → Option (Str × Nat)) (bad : Char → Prop)
    (hm : ∀ l v, m l = some v → ∃ ch ∈ l, bad ch) :
    ∀ (l : Str) (fuel : Nat), (∀ ch ∈ l, ¬ bad ch) → reSubGo m fuel l = l
  | [], fuel, _ => by cases fuel <;> rfl
  | c :: rest, fuel, hl => by
    cases fuel with
    | zero => rfl
    | succ fuel =>
      cases hv : m (c :: rest) with
      | some v =>
        obtain ⟨ch, hch, hbad⟩ := hm _ v hv
        exact absurd hbad (hl ch hch)
      | none =>
        simp only [reSubGo, hv]
        rw [reSubGo_id_of_no_match m bad hm rest fuel
          (fun ch hch => hl ch (by simp [hch]))]

theorem namespaceMatchAt_space : ∀ (l : Str) (v : Str × Nat),
    namespaceMatchAt l = some v → ∃ ch ∈ l, ch = ' ' := by
  intro l v h
  unfold namespaceMatchAt at h
  split at h
  · exact ⟨' ', by simp, rfl⟩
  · simp at h

theorem colonAfterClass_colon : ∀ (l : Str) (k : Nat),
    colonAfterClass l = some k → ':' ∈ l := by
  intro l k h
  unfold colonAfterClass at h
  split_ifs at h with hlen
  split at h
  · next heq =>
    have hmem : ':' ∈ l.drop
        (l.takeWhile (fun c => !(c = ':' || c = '<' || c = '>' || c = ' '))).length := by
      rw [heq]
      simp
    exact List.drop_subset _ _ hmem
  · simp at h

theorem nsPrefMatchAt_colon : ∀ (l : Str) (v : Str × Nat),
    nsPrefMatchAt l = some v → ∃ ch ∈ l, ch = ':' := by
  intro l v h
  unfold nsPrefMatchAt at h
  split at h
  · next rest2 =>
    cases hc : colonAfterClass rest2 with
    | some k => exact ⟨':', by simp [colonAfterClass_colon rest2 k hc], rfl⟩
    | none =>
      rw [hc] at h
      cases hc2 : colonAfterClass ('/' :: rest2) with
      | some k =>
        have hmem : ':' ∈ '/' :: rest2 := colonAfterClass_colon _ k hc2
        have : ':' ∈ rest2 := by
          cases List.mem_cons.mp hmem with
          | inl hbad => exact absurd hbad (by decide)
          | inr hmem2 => exact hmem2
        exact ⟨':', by simp [this], rfl⟩
      | none => rw [hc2] at h; simp at h
  · next rest hnf =>
    cases hc : colonAfterClass rest with
    | some k => exact ⟨':', by simp [colonAfterClass_colon rest k hc], rfl⟩
    | none => rw [hc] at h; simp at h
  · simp at h

theorem clean_tags_id_of_no_space_colon (s : Str)
    (h1 : ∀ c ∈ s, c ≠ ' ') (h2 : ∀ c ∈ s, c ≠ ':') : clean_tags s = s := by
  have e1 : reSub namespaceMatchAt s = s := by
    rw [reSub]
    exact reSubGo_id_of_no_match namespaceMatchAt (fun ch => ch = ' ')
      namespaceMatchAt_space s s.length h1
  rw [clean_tags, e1, reSub]
  exact reSubGo_id_of_no_match nsPrefMatchAt (fun ch => ch = ':')
    nsPrefMatchAt_colon s s.length h2

/-- C5 amended: `clean` is not idempotent in general (stripping one
namespace prefix can expose another, see the counterexample); it is
idempotent on every input containing neither a space nor a colon, on
which both substitution passes are the identity (the namespace pattern
needs a literal space, the prefix pattern a literal colon). -/
theorem clean_tags_idempotent_no_space_colon (s : Str)
    (h1 : ∀ c ∈ s, c ≠ ' ') (h2 : ∀ c ∈ s, c ≠ ':') :
    clean_tags (clean_tags s) = clean_tags s := by
  rw [clean_tags_id_of_no_space_colon s h1 h2, clean_tags_id_of_no_space_colon s h1 h2]

/-- Witness for the amended C5 at a concrete input. -/
theorem clean_tags_idempotent_witness :
    (∀ c ∈ ("<abc>".toList : Str), c ≠ ' ') ∧
    (∀ c ∈ ("<abc>".toList : Str), c ≠ ':') ∧
    clean_tags (clean_tags "<abc>".toList) = clean_tags "<abc>".toList :=
  ⟨by decide, by decide,
    clean_tags_idempotent_no_space_colon "<abc>".toList (by decide) (by decide)⟩

theorem re_tag_matchAt_shape : ∀ part : Str, (re_tag_matchAt part).isSome →
    ∃ c rest, part = '<' :: c :: rest ∧ rest ≠ [] := by
  intro part h
  unfold re_tag_matchAt at h
  split at h
  · next c rest =>
    refine ⟨c, rest, rfl, ?_⟩
    intro hrest
    subst hrest
    split_ifs at h <;> simp_all
  · simp at h

theorem charAt1_isSome_of_two_le : ∀ l : Str, 2 ≤ l.length → (charAt1 l).isSome
  | _ :: _ :: _, _ => rfl
  | [], h => by simp at h
  | [_], h => by simp at h

/-- C10: every token matched by `re_tag` at its start has length at
least 3, so the classifying accesses `part[1]` and `part[-2]` used by
`prettify` and `key_value` are always in bounds (both accessors return a
value and classification cannot fail). -/
theorem re_tag_match_length_safe (part : Str) (h : (re_tag_matchAt part).isSome) :
    3 ≤ part.length ∧ (charAt1 part).isSome ∧ (secondLast part).isSome := by
  obtain ⟨c, rest, hpart, hrest⟩ := re_tag_matchAt_shape part h
  subst hpart
  have hlen : 3 ≤ ('<' :: c :: rest).length := by
    cases rest with
    | nil => exact absurd rfl hrest
    | cons a t => simp [List.length_cons]
  refine ⟨hlen, rfl, ?_⟩
  rw [secondLast]
  apply charAt1_isSome_of_two_le
  rw [List.length_reverse]
  omega

/-- Witness for C10 at the concrete tag `"<a>"`. -/
theorem re_tag_match_length_safe_witness :
    ((re_tag_matchAt "<a>".toList).isSome = true) ∧
    (3 ≤ ("<a>".toList : Str).length ∧ (charAt1 "<a>".toList).isSome ∧
      (secondLast "<a>".toList).isSome) :=
  ⟨by decide, re_tag_match_length_safe "<a>".toList (by decide)⟩

/-- C1 counterexample: for the separator `"(x)"`, which carries its own
capture group, the compiled pattern `"((x))"` makes `re.split` return
the extra group pieces; on the stream `"axb\n"` the zip pairing then
duplicates `x` and drops `b\n`, the emitted records are `["a", "xx"]`,
and no re-insertion of removed line terminators onto the records can
reproduce the input stream — refuting the claim for arbitrary
separators. -/
theorem readevents_reassembly_counterexample :
    readevents_split resplitParenX (toLines "axb\n".toList)
        = ["a".toList, "xx".toList] ∧
    ¬ ∃ ts : List Str,
        ts.length = (readevents_split resplitParenX (toLines "axb\n".toList)).length ∧
        (∀ t ∈ ts, t = [] ∨ t = ['\n'] ∨ t = ['\r'] ∨ t = ['\r', '\n']) ∧
        (List.zipWith (fun r t => r ++ t)
            (readevents_split resplitParenX (toLines "axb\n".toList)) ts).flatten
          = (toLines "axb\n".toList).flatten := by
  have hrec : readevents_split resplitParenX (toLines "axb\n".toList)
      = ["a".toList, "xx".toList] := by decide
  refine ⟨hrec, ?_⟩
  rintro ⟨ts, hlen, hmem, hflat⟩
  rw [hrec] at hlen hflat
  have hstream : (toLines "axb\n".toList).flatten = "axb\n".toList := by decide
  rw [hstream] at hflat
  simp only [List.length_cons, List.length_nil] at hlen
  obtain ⟨t1, t2, rfl⟩ := List.length_eq_two.mp hlen
  have h1 := hmem t1 (by simp)
  have h2 := hmem t2 (by simp)
  rcases h1 with rfl | rfl | rfl | rfl <;> rcases h2 with rfl | rfl | rfl | rfl <;>
    exact absurd hflat (by decide)
